import Mathlib

/-!
Verification of the fastrand package (fastrand.go): a hash-counter
pseudorandom generator and the sampling helpers built on top of it.

The Go code is embedded shallowly:
  * byte buffers are `List Nat` whose elements are below 256;
  * the blake2b-256 hash is an abstract parameter `H : List Nat → List Nat`
    together with the hypothesis that every digest has length 32;
  * the stream of random draws consumed by the rejection loops is passed in
    explicitly as a list, and a loop that has not yet accepted a draw from
    the supplied list is reported as `GoResult.running`;
  * Go machine integers are `Int`/`Nat` with explicit reduction mod 2 ^ 64
    where the code relies on wrap-around.
-/

namespace Fastrand

/-- outcome of a Go call: a runtime panic, a loop still waiting for more
draws than were supplied, or a normal return. -/
inductive GoResult (α : Type) where
  | panicked (msg : String)
  | running
  | ok (v : α)
deriving DecidableEq

/-- conversion `int(u)` of a uint64 value `u < 2 ^ 64` to Go's 64-bit signed
int: values below 2 ^ 63 are unchanged, larger ones wrap to negatives
(two's complement reinterpretation), as in `int(r % uint64(n))`. -/
def goIntOfU64 (u : Nat) : Int :=
  if u < 2 ^ 63 then (u : Int) else (u : Int) - 2 ^ 64

/-- little-endian value of a byte list, least significant byte first; this is
how `*(*uint64)(unsafe.Pointer(&b[0]))` reads 8 bytes on a little-endian
machine. -/
def toU64 (bs : List Nat) : Nat := bs.foldr (fun b acc => b + 256 * acc) 0

/-- little-endian byte encoding of a uint64 value, 8 bytes; this is how a
uint64 store through `unsafe.Pointer` writes back into the buffer. -/
def ofU64 (v : Nat) : List Nat :=
  [v % 256, v / 256 % 256, v / 65536 % 256, v / 16777216 % 256,
   v / 4294967296 % 256, v / 1099511627776 % 256,
   v / 281474976710656 % 256, v / 72057594037927936 % 256]

/-- value of the 128-bit little-endian counter held in the first 16 bytes of
the entropy buffer: low 64-bit word at offset 0, high word at offset 8. -/
def toU128 (e : List Nat) : Nat :=
  toU64 (e.take 8) + 2 ^ 64 * toU64 ((e.drop 8).take 8)

/-- the counter increment at the top of `randReader.Read`'s loop:
`*(*uint64)(&entropy[0])++` (wrapping mod 2 ^ 64), and if the result is zero,
`*(*uint64)(&entropy[8])++`. -/
def incEntropy (e : List Nat) : List Nat :=
  let lo := (toU64 (e.take 8) + 1) % 2 ^ 64
  let e1 := ofU64 lo ++ e.drop 8
  if lo = 0 then
    let hi := (toU64 ((e1.drop 8).take 8) + 1) % 2 ^ 64
    e1.take 8 ++ ofU64 hi ++ e1.drop 16
  else e1

/-- mutable state of a `randReader`: the entropy buffer (16 counter bytes
followed by the seed bytes) and the scratch digest buffer `buf`. -/
structure RState where
  entropy : List Nat
  buf : List Nat
deriving DecidableEq

/-- the fill loop of `randReader.Read`, producing `todo` bytes: each
iteration increments the counter, hashes the entropy buffer into `buf`, and
copies `min todo 32` digest bytes out.  `fuel` bounds the number of
iterations; `none` models a loop that has not terminated within `fuel`
iterations (possible only if a digest were empty). -/
def readIter (H : List Nat → List Nat) : Nat → Nat → RState → Option (List Nat × RState)
  | 0, todo, s => if todo = 0 then some ([], s) else none
  | fuel + 1, todo, s =>
    if todo = 0 then some ([], s)
    else
      let e := incEntropy s.entropy
      let d := H e
      let c := min todo d.length
      match readIter H fuel (todo - c) ⟨e, d⟩ with
      | none => none
      | some (rest, s2) => some (d.take c ++ rest, s2)

/-- the call `randReader.Read(b)` for a buffer of length `L`: runs the fill loop and
returns the bytes written, the pair `(n, err)` the Go function returns, and
the final reader state.  Since every iteration writes at least one byte when
digests are 32 bytes long, `L` iterations of fuel always suffice. -/
def randReaderRead (H : List Nat → List Nat) (s : RState) (L : Nat) :
    Option (List Nat × (Nat × Option String) × RState) :=
  match readIter H L L s with
  | none => none
  | some (out, s2) => some (out, (out.length, none), s2)

/-- a Go slice value: a view `[start, stop)` into a backing array whose
capacity extends from `start` to the end of the backing array. -/
structure GoSlice where
  backing : List Nat
  start : Nat
  stop : Nat

/-- length of a Go slice. -/
def GoSlice.len (s : GoSlice) : Nat := s.stop - s.start

/-- capacity of a Go slice. -/
def GoSlice.cap (s : GoSlice) : Nat := s.backing.length - s.start

/-- elements visible through a Go slice. -/
def GoSlice.toList (s : GoSlice) : List Nat :=
  (s.backing.drop s.start).take s.len

/-- overwrite of `l` at position `i` with the elements of `xs`. -/
def listWriteAt (l : List Nat) (i : Nat) (xs : List Nat) : List Nat :=
  l.take i ++ xs ++ l.drop (i + xs.length)

/-- Go's `append(s, xs...)`: if the extra elements fit in the capacity they
are written into the backing array in place, otherwise a fresh backing array
is allocated and the original is untouched.  The second component is the
state of the ORIGINAL backing array after the call. -/
def goAppend (s : GoSlice) (xs : List Nat) : GoSlice × List Nat :=
  if s.len + xs.length ≤ s.cap then
    let b := listWriteAt s.backing s.stop xs
    (⟨b, s.start, s.stop + xs.length⟩, b)
  else
    (⟨s.toList ++ xs, 0, s.len + xs.length⟩, s.backing)

/-- the entropy buffer as left by the `Reader` initializer, as a function of
the blake2b-256 digest of the 64 entropy-source bytes: the code runs
`entropy := make([]byte, 16+32)` and then `h.Sum(entropy[16:])`, where
`hash.Hash.Sum` APPENDS the digest to its argument and returns the result
(which the code discards). -/
def readerInitEntropy (digest : List Nat) : List Nat :=
  (goAppend ⟨List.replicate 48 0, 16, 48⟩ digest).2

/-- the rejection threshold computed by `Intn`:
`max := math.MaxUint64 - math.MaxUint64%uint64(n)`. -/
def intnMax (n : Nat) : Nat := (2 ^ 64 - 1) - (2 ^ 64 - 1) % n

/-- the rejection loop of `Intn` over the successive uint64 draws (each draw
is the 8 random bytes read into `b`, reinterpreted as a uint64): the first
draw `r < maxv` is accepted and reduced mod `n`. -/
def intnFind (maxv nN : Nat) : List Nat → Option Nat
  | [] => none
  | r :: rest => if maxv ≤ r then intnFind maxv nN rest else some (r % nN)

/-- the function `Intn(n)`: panics for `n <= 0`, otherwise rejection-samples a uint64
below `intnMax n` and returns `int(r % uint64(n))`. -/
def intn (n : Int) (draws : List Nat) : GoResult Int :=
  if n ≤ 0 then .panicked "fastrand: argument to Intn is <= 0"
  else
    match intnFind (intnMax n.toNat) n.toNat draws with
    | none => .running
    | some u => .ok (goIntOfU64 u)

/-- the function `Bytes(n)`: `make([]byte, n)` panics when `n` is negative; otherwise the
fresh buffer is filled by one `Read` call. -/
def goBytes (H : List Nat → List Nat) (s : RState) (n : Int) :
    GoResult (List Nat × RState) :=
  if n < 0 then .panicked "runtime error: makeslice: len out of range"
  else
    match randReaderRead H s n.toNat with
    | none => .running
    | some (out, _, s2) => .ok (out, s2)

/-- number of binary digits of a natural number (0 for 0), with explicit
fuel (`bitLenAux m m` is exact because the bit count of `m ≥ 1` never
exceeds `m`); this is `(*big.Int).BitLen`. -/
def bitLenAux : Nat → Nat → Nat
  | 0, _ => 0
  | fuel + 1, m => if m = 0 then 0 else bitLenAux fuel (m / 2) + 1

/-- bit length of a natural number, `(*big.Int).BitLen` applied to `n-1`
inside `crypto/rand.Int`. -/
def bitLen (m : Nat) : Nat := bitLenAux m m

/-- the method `(*big.Int).SetBytes`: big-endian interpretation of a byte list. -/
def bigSetBytes (bs : List Nat) : Nat := bs.foldl (fun acc b => acc * 256 + b) 0

/-- the masking step `bytes[0] &= uint8(int(1<<b) - 1)`: clear the high bits of the first
byte of a candidate block (AND with a low-bit mask is reduction mod 2 ^ b). -/
def maskTop (b : Nat) (bs : List Nat) : List Nat :=
  match bs with
  | [] => []
  | b0 :: rest => b0 % 2 ^ b :: rest

/-- the rejection loop of `crypto/rand.Int`: draw a block of bytes, mask the
top byte, interpret big-endian, accept if below `n`. -/
def randIntLoop (n b : Nat) : List (List Nat) → Option Nat
  | [] => none
  | blk :: rest =>
    let c := bigSetBytes (maskTop b blk)
    if c < n then some c else randIntLoop n b rest

/-- Modelled from the spec: the delegate `crypto/rand.Int(Reader, n)` called
by `BigIntn` is standard-library code not present in this repository.  Per
its documented contract and the spec ("performs its own rejection sampling
internally using the Generator as its byte source", "fails/aborts if
n ≤ 0"), it panics for `n ≤ 0`; for `n = 1` it returns 0 without drawing;
otherwise it repeatedly reads `(bitLen (n-1) + 7) / 8` bytes, masks the top
byte down to `bitLen (n-1) % 8` bits (8 if that is 0), and accepts the first
candidate below `n`.  `BigIntn` returns its result unchanged. -/
def bigIntn (n : Int) (draws : List (List Nat)) : GoResult Int :=
  if n ≤ 0 then .panicked "crypto/rand: argument to Int is <= 0"
  else
    let bl := bitLen (n - 1).toNat
    if bl = 0 then .ok 0
    else
      let b := if bl % 8 = 0 then 8 else bl % 8
      match randIntLoop n.toNat b draws with
      | none => .running
      | some c => .ok (c : Int)

/-- pointwise update of an array modelled as a function: `f[i] := v`. -/
def fupd (f : Nat → Nat) (i v : Nat) : Nat → Nat :=
  fun x => if x = i then v else f x

/-- state of `Perm`'s loop after iterations `i = 1 .. k`: the array `m`
(created as `make([]int, n)`, all zeros) as a function of the index, paired
with the number of `Intn` calls made so far; `js i` is the value returned by
`Intn(i+1)` at iteration `i`.  One iteration runs `m[i] = m[j]; m[j] = i`. -/
def permState (js : Nat → Nat) : Nat → (Nat → Nat) × Nat
  | 0 => (fun _ => 0, 0)
  | k + 1 =>
    let p := permState js k
    let i := k + 1
    let j := js i
    (fupd (fupd p.1 i (p.1 j)) j i, p.2 + 1)

/-- the function `Perm(n)`: the resulting slice (the loop's array read back at indices
`0 .. n-1`) together with the number of `Intn` draws consumed (one per loop
iteration, i.e. `n - 1` for `n ≥ 1` and none for `n ≤ 1`). -/
def perm (n : Nat) (js : Nat → Nat) : List Nat × Nat :=
  ((List.range n).map (permState js (n - 1)).1, (permState js (n - 1)).2)

/-! ## Helper lemmas -/

theorem length_ofU64 (v : Nat) : (ofU64 v).length = 8 := rfl

theorem toU64_ofU64 (v : Nat) (hv : v < 2 ^ 64) : toU64 (ofU64 v) = v := by
  simp only [toU64, ofU64, List.foldr]
  omega

theorem mem_ofU64_lt (v : Nat) : ∀ b ∈ ofU64 v, b < 256 := by
  intro b hb
  simp only [ofU64, List.mem_cons, List.not_mem_nil, or_false] at hb
  rcases hb with h | h | h | h | h | h | h | h <;> subst h <;> omega

theorem toU64_lt (bs : List Nat) (h : ∀ b ∈ bs, b < 256) :
    toU64 bs < 256 ^ bs.length := by
  induction bs with
  | nil => simp [toU64]
  | cons b rest ih =>
    have hb := h b (List.mem_cons_self b rest)
    have hr := ih (fun x hx => h x (List.mem_cons_of_mem b hx))
    simp only [toU64, List.foldr] at hr ⊢
    calc b + 256 * rest.foldr (fun b acc => b + 256 * acc) 0
        ≤ 255 + 256 * rest.foldr (fun b acc => b + 256 * acc) 0 := by omega
      _ < 256 * (rest.foldr (fun b acc => b + 256 * acc) 0 + 1) := by omega
      _ ≤ 256 * 256 ^ rest.length := by
          exact Nat.mul_le_mul_left 256 (by omega)
      _ = 256 ^ (b :: rest).length := by rw [List.length_cons, pow_succ, mul_comm]

theorem intnMax_eq_mul (n : Nat) :
    intnMax n = n * ((2 ^ 64 - 1) / n) := by
  have h := Nat.div_add_mod (2 ^ 64 - 1) n
  simp only [intnMax]
  omega

theorem drop16_of_append8 (v : Nat) (X : List Nat) :
    (ofU64 v ++ X).drop 16 = X.drop 8 := by
  rw [show (16 : Nat) = 8 + 8 from rfl, Nat.add_comm, ← List.drop_drop,
    List.drop_left' (length_ofU64 _)]

/-- shape of the entropy increment when the low counter word wraps to
zero. -/
theorem incEntropy_eq_pos (e : List Nat)
    (hz : (toU64 (e.take 8) + 1) % 2 ^ 64 = 0) :
    incEntropy e =
      ofU64 0 ++ (ofU64 ((toU64 ((e.drop 8).take 8) + 1) % 2 ^ 64) ++ e.drop 16) := by
  simp only [incEntropy]
  rw [if_pos hz, List.take_left' (length_ofU64 _),
    List.drop_left' (length_ofU64 _), drop16_of_append8, List.drop_drop, hz]
  norm_num

/-- shape of the entropy increment when the low counter word does not
wrap. -/
theorem incEntropy_eq_neg (e : List Nat)
    (hz : ¬ (toU64 (e.take 8) + 1) % 2 ^ 64 = 0) :
    incEntropy e = ofU64 ((toU64 (e.take 8) + 1) % 2 ^ 64) ++ e.drop 8 := by
  simp only [incEntropy]
  rw [if_neg hz]

theorem toU128_append_single (x : Nat) (hx : x < 2 ^ 64) (X : List Nat) :
    toU128 (ofU64 x ++ X) = x + 2 ^ 64 * toU64 (X.take 8) := by
  rw [toU128, List.take_left' (length_ofU64 _),
    List.drop_left' (length_ofU64 _), toU64_ofU64 _ hx]

/-- the entropy increment leaves everything past the first 16 bytes
unchanged. -/
theorem incEntropy_drop16 (e : List Nat) :
    (incEntropy e).drop 16 = e.drop 16 := by
  by_cases hz : (toU64 (e.take 8) + 1) % 2 ^ 64 = 0
  · rw [incEntropy_eq_pos e hz, drop16_of_append8,
      List.drop_left' (length_ofU64 _)]
  · rw [incEntropy_eq_neg e hz, drop16_of_append8, List.drop_drop]

theorem incEntropy_length (e : List Nat) (h : 16 ≤ e.length) :
    (incEntropy e).length = e.length := by
  by_cases hz : (toU64 (e.take 8) + 1) % 2 ^ 64 = 0
  · rw [incEntropy_eq_pos e hz]
    simp only [List.length_append, List.length_drop, length_ofU64]
    omega
  · rw [incEntropy_eq_neg e hz]
    simp only [List.length_append, List.length_drop, length_ofU64]
    omega

theorem incEntropy_bytes (e : List Nat) (hb : ∀ b ∈ e, b < 256) :
    ∀ b ∈ incEntropy e, b < 256 := by
  intro b hmem
  by_cases hz : (toU64 (e.take 8) + 1) % 2 ^ 64 = 0
  · rw [incEntropy_eq_pos e hz] at hmem
    simp only [List.mem_append] at hmem
    rcases hmem with h | h | h
    · exact mem_ofU64_lt _ b h
    · exact mem_ofU64_lt _ b h
    · exact hb b (List.mem_of_mem_drop h)
  · rw [incEntropy_eq_neg e hz] at hmem
    simp only [List.mem_append] at hmem
    rcases hmem with h | h
    · exact mem_ofU64_lt _ b h
    · exact hb b (List.mem_of_mem_drop h)

/-- the entropy increment is the successor of the 128-bit little-endian
counter, modulo 2 ^ 128. -/
theorem incEntropy_counter (e : List Nat) (hlen : e.length = 48)
    (hb : ∀ b ∈ e, b < 256) :
    toU128 (incEntropy e) = (toU128 e + 1) % 2 ^ 128 := by
  have htake8 : (e.take 8).length = 8 := by
    rw [List.length_take]; omega
  have htake8d : ((e.drop 8).take 8).length = 8 := by
    rw [List.length_take, List.length_drop]; omega
  have ha : toU64 (e.take 8) < 2 ^ 64 := by
    have := toU64_lt (e.take 8) (fun x hx => hb x (List.mem_of_mem_take hx))
    rw [htake8] at this
    omega
  have hbv : toU64 ((e.drop 8).take 8) < 2 ^ 64 := by
    have := toU64_lt ((e.drop 8).take 8)
      (fun x hx => hb x (List.mem_of_mem_drop (List.mem_of_mem_take hx)))
    rw [htake8d] at this
    omega
  have hu : toU128 e = toU64 (e.take 8) + 2 ^ 64 * toU64 ((e.drop 8).take 8) := rfl
  by_cases hz : (toU64 (e.take 8) + 1) % 2 ^ 64 = 0
  · rw [incEntropy_eq_pos e hz, toU128_append_single 0 (by norm_num),
      List.take_left' (length_ofU64 _), toU64_ofU64 _ (Nat.mod_lt _ (by norm_num)),
      hu]
    omega
  · rw [incEntropy_eq_neg e hz,
      toU128_append_single _ (Nat.mod_lt _ (by norm_num)), hu]
    omega

/-- the fill loop always terminates and produces exactly the requested
number of bytes, provided every digest has 32 bytes and the fuel covers the
requested length (one byte per iteration is the worst case). -/
theorem readIter_total (H : List Nat → List Nat)
    (hH : ∀ e, (H e).length = 32) :
    ∀ fuel todo s, todo ≤ fuel →
      ∃ out s2, readIter H fuel todo s = some (out, s2) ∧ out.length = todo := by
  intro fuel
  induction fuel with
  | zero =>
    intro todo s hle
    have h0 : todo = 0 := Nat.le_zero.mp hle
    subst h0
    exact ⟨[], s, rfl, rfl⟩
  | succ fuel ih =>
    intro todo s hle
    by_cases h0 : todo = 0
    · subst h0
      exact ⟨[], s, by simp [readIter], rfl⟩
    · have hc : min todo (H (incEntropy s.entropy)).length ≤ todo :=
        Nat.min_le_left _ _
      have hc1 : 1 ≤ min todo (H (incEntropy s.entropy)).length := by
        rw [hH]
        omega
      obtain ⟨rest, s2, hrec, hlen⟩ :=
        ih (todo - min todo (H (incEntropy s.entropy)).length)
          ⟨incEntropy s.entropy, H (incEntropy s.entropy)⟩ (by omega)
      refine ⟨(H (incEntropy s.entropy)).take
          (min todo (H (incEntropy s.entropy)).length) ++ rest, s2, ?_, ?_⟩
      · simp only [readIter, if_neg h0, hrec]
      · rw [List.length_append, List.length_take, hlen]
        rw [hH] at hc hc1 ⊢
        omega

/-- the fill loop never touches the seed bytes of the entropy buffer. -/
theorem readIter_seed (H : List Nat → List Nat) :
    ∀ fuel todo s out s2, readIter H fuel todo s = some (out, s2) →
      s2.entropy.drop 16 = s.entropy.drop 16 := by
  intro fuel
  induction fuel with
  | zero =>
    intro todo s out s2 h
    by_cases h0 : todo = 0
    · subst h0
      have h2 : (([] : List Nat), s) = (out, s2) := Option.some.inj h
      injection h2 with h3 h4
      rw [← h4]
    · simp [readIter, if_neg h0] at h
  | succ fuel ih =>
    intro todo s out s2 h
    by_cases h0 : todo = 0
    · subst h0
      have h2 : (([] : List Nat), s) = (out, s2) := Option.some.inj h
      injection h2 with h3 h4
      rw [← h4]
    · simp only [readIter, if_neg h0] at h
      rcases hrec : readIter H fuel
          (todo - min todo (H (incEntropy s.entropy)).length)
          ⟨incEntropy s.entropy, H (incEntropy s.entropy)⟩ with _ | ⟨rest, s3⟩
      · rw [hrec] at h
        exact absurd h (by simp)
      · rw [hrec] at h
        simp only [Option.some.injEq, Prod.mk.injEq] at h
        have := ih _ _ _ _ hrec
        rw [← h.2, this]
        exact incEntropy_drop16 s.entropy

/-! ## Claim theorems -/

/-- C5: for every requested length `L ≥ 0`, `randReader.Read` on a buffer of
length `L` terminates, fills all `L` positions, and returns `(L, nil)`;
it never errors and never returns a count different from the buffer
length. -/
theorem read_fills_and_returns_len_nil (H : List Nat → List Nat)
    (hH : ∀ e, (H e).length = 32) (s : RState) (L : Nat) :
    randReaderRead H s L ≠ none ∧
    ∀ out p s2, randReaderRead H s L = some (out, p, s2) →
      out.length = L ∧ p.1 = L ∧ p.2 = none := by
  obtain ⟨out, s2, hrun, hlen⟩ := readIter_total H hH L L s le_rfl
  constructor
  · simp [randReaderRead, hrun]
  · intro out2 p s3 h
    rw [randReaderRead, hrun] at h
    simp only [Option.some.injEq, Prod.mk.injEq] at h
    refine ⟨?_, ?_, ?_⟩
    · rw [← h.1, hlen]
    · rw [← h.2.1]
      simpa using hlen
    · rw [← h.2.1]

/-- witness for C5: a concrete five-byte read with an all-zero digest
function succeeds, fills five bytes, and reports `(5, nil)`. -/
theorem read_fills_and_returns_len_nil_witness :
    randReaderRead (fun _ => List.replicate 32 0) ⟨List.replicate 48 0, []⟩ 5 ≠ none ∧
    (List.replicate 5 (0 : Nat)).length = 5 := by
  have h := read_fills_and_returns_len_nil (fun _ => List.replicate 32 0)
    (fun _ => rfl) ⟨List.replicate 48 0, []⟩ 5
  refine ⟨h.1, ?_⟩
  have h2 := h.2 (List.replicate 5 0) (5, none)
    ⟨1 :: List.replicate 47 0, List.replicate 32 0⟩ (by decide)
  exact h2.1

/-- C6: each iteration of the fill loop changes the entropy buffer only in
its first 16 bytes, replacing the 128-bit little-endian counter by its
successor modulo 2 ^ 128 (the low 64-bit word is incremented and, when it
wraps to zero, the high word is incremented); the seed bytes
`entropy[16:48]` survive every `Read` call unchanged. -/
theorem read_counter_and_seed_frame (H : List Nat → List Nat) (e : List Nat)
    (hlen : e.length = 48) (hb : ∀ b ∈ e, b < 256) :
    toU128 (incEntropy e) = (toU128 e + 1) % 2 ^ 128 ∧
    (incEntropy e).drop 16 = e.drop 16 ∧
    (incEntropy e).length = 48 ∧
    (∀ fuel todo s out s2, readIter H fuel todo s = some (out, s2) →
      s2.entropy.drop 16 = s.entropy.drop 16) := by
  refine ⟨incEntropy_counter e hlen hb, incEntropy_drop16 e, ?_, ?_⟩
  · rw [incEntropy_length e (by omega), hlen]
  · intro fuel todo s out s2 h
    exact readIter_seed H fuel todo s out s2 h

/-- witness for C6: incrementing the all-zero 48-byte entropy buffer yields
counter value 1 and leaves the seed bytes untouched. -/
theorem read_counter_and_seed_frame_witness :
    toU128 (incEntropy (List.replicate 48 0)) =
      (toU128 (List.replicate 48 0) + 1) % 2 ^ 128 ∧
    (incEntropy (List.replicate 48 0)).drop 16 = (List.replicate 48 0).drop 16 := by
  have h := read_counter_and_seed_frame (fun _ => List.replicate 32 0)
    (List.replicate 48 0) rfl (by decide)
  exact ⟨h.1, h.2.1⟩

/-- an accepted draw of the rejection loop is some drawn value reduced mod
`nN`, and the accepted raw value is below the threshold. -/
theorem intnFind_some (maxv nN : Nat) :
    ∀ draws u, intnFind maxv nN draws = some u →
      ∃ r ∈ draws, r < maxv ∧ u = r % nN := by
  intro draws
  induction draws with
  | nil => intro u h; simp [intnFind] at h
  | cons r rest ih =>
    intro u h
    by_cases hr : maxv ≤ r
    · rw [intnFind, if_pos hr] at h
      obtain ⟨r2, hmem, hlt, he⟩ := ih u h
      exact ⟨r2, List.mem_cons_of_mem r hmem, hlt, he⟩
    · rw [intnFind, if_neg hr] at h
      exact ⟨r, List.mem_cons_self r rest, by omega, (Option.some.inj h).symm⟩

/-- C2: `Intn(n)` panics exactly when `n ≤ 0`; whenever it returns for a
positive bound `n` (a value of the 64-bit signed int type), the returned
value lies in `[0, n)`. -/
theorem intn_panics_iff_and_in_range (n : Int) (hn : n ≤ 2 ^ 63 - 1)
    (draws : List Nat) :
    ((∃ m, intn n draws = .panicked m) ↔ n ≤ 0) ∧
    (∀ v, intn n draws = .ok v → 0 ≤ v ∧ v < n) := by
  by_cases h0 : n ≤ 0
  · refine ⟨⟨fun _ => h0, fun _ => ⟨_, by rw [intn, if_pos h0]⟩⟩, ?_⟩
    intro v hv
    rw [intn, if_pos h0] at hv
    exact absurd hv (by simp)
  · have hpos : 0 < n := by omega
    have hnN : 0 < n.toNat := by omega
    constructor
    · constructor
      · intro ⟨m, hm⟩
        rw [intn, if_neg h0] at hm
        rcases hfind : intnFind (intnMax n.toNat) n.toNat draws with _ | u <;>
          rw [hfind] at hm <;> exact absurd hm (by simp)
      · intro h; exact absurd h h0
    · intro v hv
      rw [intn, if_neg h0] at hv
      rcases hfind : intnFind (intnMax n.toNat) n.toNat draws with _ | u <;>
        rw [hfind] at hv
      · exact absurd hv (by simp)
      · obtain ⟨r, _, _, hu⟩ := intnFind_some _ _ draws u hfind
        have hlt : u < n.toNat := by
          rw [hu]; exact Nat.mod_lt r hnN
        have hconv : goIntOfU64 u = (u : Int) := by
          rw [goIntOfU64, if_pos (by omega)]
        have hv2 : v = (u : Int) := by
          have := GoResult.ok.inj hv
          rw [← this, hconv]
        constructor
        · rw [hv2]; exact Int.ofNat_nonneg u
        · rw [hv2]
          have : (u : Int) < (n.toNat : Int) := by exact_mod_cast hlt
          rwa [Int.toNat_of_nonneg (le_of_lt hpos)] at this

/-- witness for C2: with bound 5 and first draw 7, `Intn` accepts the draw
and returns `7 % 5 = 2`, which lies in `[0, 5)`. -/
theorem intn_panics_iff_and_in_range_witness :
    (0 : Int) ≤ 2 ∧ (2 : Int) < 5 :=
  (intn_panics_iff_and_in_range 5 (by norm_num) [7]).2 2 (by decide)

/-- counterexample to C3 as stated: at `n = 2` the threshold computed by
`Intn` is `2 ^ 64 - 2`, not `2 ^ 64 - (2 ^ 64 % 2) = 2 ^ 64`; the largest
multiple of 2 not exceeding `2 ^ 64` is `2 ^ 64` itself, which the code's
`max` does not equal. -/
theorem intnMax_ne_claim_at_two :
    intnMax 2 ≠ 2 ^ 64 - 2 ^ 64 % 2 := by decide

/-- C3 (amended): for every `n > 0`, `max = MaxUint64 - MaxUint64 % n` is
the largest multiple of `n` not exceeding `MaxUint64 = 2 ^ 64 - 1`; it
equals `2 ^ 64 - (2 ^ 64 mod n)` exactly when `n` does not divide `2 ^ 64`,
while for `n` dividing `2 ^ 64` (powers of two) it equals `2 ^ 64 - n`. -/
theorem intnMax_correct (n : Nat) (hn : 0 < n) :
    (¬ (n ∣ 2 ^ 64) → intnMax n = 2 ^ 64 - 2 ^ 64 % n) ∧
    ((n ∣ 2 ^ 64) → intnMax n = 2 ^ 64 - n) ∧
    intnMax n % n = 0 ∧
    intnMax n ≤ 2 ^ 64 - 1 ∧
    (∀ m, m % n = 0 → m ≤ 2 ^ 64 - 1 → m ≤ intnMax n) := by
  have hdm := Nat.div_add_mod (2 ^ 64 - 1) n
  have hmlt : (2 ^ 64 - 1) % n < n := Nat.mod_lt _ hn
  have hmul := intnMax_eq_mul n
  have hW : (2 ^ 64 : Nat) = n * ((2 ^ 64 - 1) / n) + ((2 ^ 64 - 1) % n + 1) := by
    omega
  have hWmod : (2 ^ 64 : Nat) % n = ((2 ^ 64 - 1) % n + 1) % n := by
    conv_lhs => rw [hW]
    exact Nat.mul_add_mod n _ _
  refine ⟨?_, ?_, ?_, ?_, ?_⟩
  · intro hdvd
    have hne : (2 ^ 64 - 1) % n + 1 ≠ n := by
      intro he
      exact hdvd ⟨(2 ^ 64 - 1) / n + 1, by rw [Nat.mul_add]; omega⟩
    have : (2 ^ 64 : Nat) % n = (2 ^ 64 - 1) % n + 1 := by
      rw [hWmod, Nat.mod_eq_of_lt (by omega)]
    simp only [intnMax]
    omega
  · intro hdvd
    have h0 : (2 ^ 64 : Nat) % n = 0 := Nat.dvd_iff_mod_eq_zero.mp hdvd
    have h1 : ((2 ^ 64 - 1) % n + 1) % n = 0 := by rw [← hWmod, h0]
    have h2 : (2 ^ 64 - 1) % n + 1 = n := by
      rcases Nat.lt_or_ge ((2 ^ 64 - 1) % n + 1) n with hlt | hge
      · rw [Nat.mod_eq_of_lt hlt] at h1; omega
      · omega
    simp only [intnMax]
    omega
  · rw [hmul, Nat.mul_mod_right]
  · simp only [intnMax]; omega
  · intro m hm hle
    obtain ⟨k, hk⟩ := Nat.dvd_iff_mod_eq_zero.mpr hm
    rw [hmul, hk]
    have hkle : k ≤ (2 ^ 64 - 1) / n := by
      by_contra hgt
      push_neg at hgt
      have : n * ((2 ^ 64 - 1) / n) + n ≤ n * k := by
        calc n * ((2 ^ 64 - 1) / n) + n = n * ((2 ^ 64 - 1) / n + 1) := by ring
          _ ≤ n * k := Nat.mul_le_mul_left n hgt
      omega
    exact Nat.mul_le_mul_left n hkle

/-- witness for the amended C3: at `n = 5` (which does not divide `2 ^ 64`)
the threshold equals `2 ^ 64 - (2 ^ 64 mod 5)`. -/
theorem intnMax_correct_witness :
    intnMax 5 = 2 ^ 64 - 2 ^ 64 % 5 :=
  (intnMax_correct 5 (by norm_num)).1 (by decide)

/-- C4: the threshold computed inside `Intn`'s rejection loop is an exact
multiple of `n`, and each residue `v < n` has exactly `max / n` preimages
`r < max` under `r mod n`, so accepted draws make `r mod n` exactly uniform
over `[0, n)`. -/
theorem intnMax_multiple_and_uniform_fibers (n : Nat) (hn : 0 < n) :
    intnMax n % n = 0 ∧
    ∀ v, v < n →
      ((Finset.range (intnMax n)).filter (fun r => r % n = v)).card =
        intnMax n / n := by
  have hmul := intnMax_eq_mul n
  have hdiv : intnMax n / n = (2 ^ 64 - 1) / n := by
    rw [hmul, Nat.mul_div_cancel_left _ hn]
  constructor
  · rw [hmul, Nat.mul_mod_right]
  · intro v hv
    rw [hdiv, ← Finset.card_range ((2 ^ 64 - 1) / n)]
    apply Finset.card_bij' (fun r _ => r / n) (fun i _ => n * i + v)
    · intro r hr
      simp only [Finset.mem_filter, Finset.mem_range] at hr
      simp only [Finset.mem_range]
      rw [hmul] at hr
      exact Nat.div_lt_of_lt_mul hr.1
    · intro i hi
      simp only [Finset.mem_range] at hi
      simp only [Finset.mem_filter, Finset.mem_range]
      constructor
      · rw [hmul]
        calc n * i + v < n * i + n := by omega
          _ = n * (i + 1) := by ring
          _ ≤ n * ((2 ^ 64 - 1) / n) := Nat.mul_le_mul_left n (by omega)
      · rw [Nat.mul_add_mod, Nat.mod_eq_of_lt hv]
    · intro r hr
      simp only [Finset.mem_filter, Finset.mem_range] at hr
      have := Nat.div_add_mod r n
      rw [hr.2] at this
      omega
    · intro i _
      rw [Nat.mul_add_div hn, Nat.div_eq_of_lt hv, Nat.add_zero]

/-- witness for C4: at `n = 5` the threshold is an exact multiple of 5. -/
theorem intnMax_multiple_and_uniform_fibers_witness :
    intnMax 5 % 5 = 0 :=
  (intnMax_multiple_and_uniform_fibers 5 (by norm_num)).1

/-- C10: as long as `0 < n ≤ 2 ^ 63 - 1` (every positive value of Go's
64-bit int), the conversion `int(r % uint64(n))` performed at the end of
`Intn` does not overflow: the result is non-negative, equals the
mathematical residue of the draw `r` mod `n`, and is below `n`. -/
theorem intn_conversion_no_overflow (n : Int) (r : Nat) (h1 : 0 < n)
    (h2 : n ≤ 2 ^ 63 - 1) :
    goIntOfU64 (r % n.toNat) = (r : Int) % n ∧
    0 ≤ goIntOfU64 (r % n.toNat) ∧
    goIntOfU64 (r % n.toNat) < n := by
  have hnN : 0 < n.toNat := by omega
  have hnNle : n.toNat ≤ 2 ^ 63 - 1 := by omega
  have hlt : r % n.toNat < n.toNat := Nat.mod_lt r hnN
  have hsmall : r % n.toNat < 2 ^ 63 := by omega
  have hconv : goIntOfU64 (r % n.toNat) = ((r % n.toNat : Nat) : Int) := by
    rw [goIntOfU64, if_pos hsmall]
  refine ⟨?_, ?_, ?_⟩
  · rw [hconv]
    have h3 : ((r % n.toNat : Nat) : Int) = (r : Int) % (n.toNat : Int) := rfl
    rw [h3, Int.toNat_of_nonneg (le_of_lt h1)]
  · rw [hconv]; exact Int.ofNat_nonneg _
  · rw [hconv]
    have : ((r % n.toNat : Nat) : Int) < ((n.toNat : Nat) : Int) := by
      exact_mod_cast hlt
    rwa [Int.toNat_of_nonneg (le_of_lt h1)] at this

/-- witness for C10: with `n = 5` and draw `r = 2 ^ 63 + 7`, the conversion
yields exactly the mathematical residue. -/
theorem intn_conversion_no_overflow_witness :
    goIntOfU64 ((2 ^ 63 + 7) % (5 : Int).toNat) = ((2 ^ 63 + 7 : Nat) : Int) % 5 ∧
    0 ≤ goIntOfU64 ((2 ^ 63 + 7) % (5 : Int).toNat) :=
  ⟨(intn_conversion_no_overflow 5 (2 ^ 63 + 7) (by norm_num) (by norm_num)).1,
   (intn_conversion_no_overflow 5 (2 ^ 63 + 7) (by norm_num) (by norm_num)).2.1⟩

/-- C1 (code bug): the `Reader` initializer allocates the 48-byte entropy
buffer with its 16 counter bytes zero, but the digest never reaches the
buffer: `h.Sum(r.entropy[16:])` appends to a slice whose length already
equals its capacity, so the append reallocates, the discarded return value
holds the digest, and `entropy[16:48]` stays all zero instead of holding
the blake2b-256 digest of the entropy-source bytes.  Evaluated here at a
nonzero 32-byte digest. -/
theorem readerInit_discards_digest :
    readerInitEntropy (List.replicate 32 1) = List.replicate 48 0 ∧
    (readerInitEntropy (List.replicate 32 1)).take 16 = List.replicate 16 0 ∧
    (readerInitEntropy (List.replicate 32 1)).drop 16 ≠ List.replicate 32 1 := by
  refine ⟨by decide, by decide, by decide⟩

/-- the initializer discards the digest for EVERY digest value: the entropy
buffer it leaves behind is all zero whenever the digest has the blake2b-256
length of 32 bytes. -/
theorem readerInit_entropy_all_zero (digest : List Nat)
    (hd : digest.length = 32) :
    readerInitEntropy digest = List.replicate 48 0 := by
  rw [readerInitEntropy, goAppend, if_neg]
  rw [GoSlice.len, GoSlice.cap]
  simp only [List.length_replicate, hd]
  omega

/-- counterexample to C8 as stated: `Bytes(-1)` does have a failure mode,
because `make([]byte, n)` panics for a negative length. -/
theorem bytes_negative_panics :
    goBytes (fun _ => List.replicate 32 0) ⟨List.replicate 48 0, []⟩ (-1) =
      .panicked "runtime error: makeslice: len out of range" := by
  rw [goBytes, if_pos (by norm_num)]

/-- C8 (amended): for every requested count `n ≥ 0`, `Bytes(n)` has no
failure mode: it returns a byte sequence of length exactly `n`, and
`Bytes(0)` returns the empty sequence; for `n < 0` the underlying `make`
panics. -/
theorem bytes_length (H : List Nat → List Nat) (hH : ∀ e, (H e).length = 32)
    (s : RState) (n : Int) (hn : 0 ≤ n) :
    (∀ m, goBytes H s n ≠ .panicked m) ∧
    (∀ out s2, goBytes H s n = .ok (out, s2) → out.length = n.toNat) ∧
    (∀ out s2, goBytes H s n = .ok (out, s2) → n = 0 → out = []) ∧
    goBytes H s n ≠ .running := by
  have hneg : ¬ n < 0 := by omega
  obtain ⟨out, s2, hrun, hlen⟩ := readIter_total H hH n.toNat n.toNat s le_rfl
  have hread : randReaderRead H s n.toNat = some (out, (out.length, none), s2) := by
    rw [randReaderRead, hrun]
  have hgb : goBytes H s n = .ok (out, s2) := by
    rw [goBytes, if_neg hneg, hread]
  refine ⟨?_, ?_, ?_, ?_⟩
  · intro m h
    rw [hgb] at h
    exact absurd h (by simp)
  · intro out2 s3 h
    rw [hgb] at h
    have h2 := GoResult.ok.inj h
    injection h2 with h3 h4
    rw [← h3, hlen]
  · intro out2 s3 h h0
    rw [hgb] at h
    have h2 := GoResult.ok.inj h
    injection h2 with h3 h4
    have : out.length = 0 := by rw [hlen, h0]; rfl
    rw [← h3]
    exact List.eq_nil_of_length_eq_zero this
  · rw [hgb]
    simp

/-- witness for the amended C8: `Bytes(5)` with an all-zero digest function
returns five bytes. -/
theorem bytes_length_witness :
    (List.replicate 5 (0 : Nat)).length = (5 : Int).toNat :=
  (bytes_length (fun _ => List.replicate 32 0) (fun _ => rfl)
      ⟨List.replicate 48 0, []⟩ 5 (by norm_num)).2.1
    (List.replicate 5 0) ⟨1 :: List.replicate 47 0, List.replicate 32 0⟩
    (by decide)

/-- a value accepted by the big-integer rejection loop is below the bound. -/
theorem randIntLoop_some (n b : Nat) :
    ∀ draws c, randIntLoop n b draws = some c → c < n := by
  intro draws
  induction draws with
  | nil => intro c h; exact absurd h (by simp [randIntLoop])
  | cons blk rest ih =>
    intro c h
    simp only [randIntLoop] at h
    by_cases hc : bigSetBytes (maskTop b blk) < n
    · rw [if_pos hc] at h
      rw [← Option.some.inj h]
      exact hc
    · rw [if_neg hc] at h
      exact ih c h

/-- C9: `BigIntn(n)` panics (inside the delegated `crypto/rand.Int`)
exactly when `n ≤ 0`; whenever it returns for `n > 0`, the result lies in
`[0, n)`. -/
theorem bigIntn_panics_iff_and_in_range (n : Int) (draws : List (List Nat)) :
    ((∃ m, bigIntn n draws = .panicked m) ↔ n ≤ 0) ∧
    (∀ v, bigIntn n draws = .ok v → 0 ≤ v ∧ v < n) := by
  by_cases h0 : n ≤ 0
  · refine ⟨⟨fun _ => h0, fun _ => ⟨_, by rw [bigIntn, if_pos h0]⟩⟩, ?_⟩
    intro v hv
    rw [bigIntn, if_pos h0] at hv
    exact absurd hv (by simp)
  · have hpos : 0 < n := by omega
    constructor
    · constructor
      · intro ⟨m, hm⟩
        simp only [bigIntn, if_neg h0] at hm
        by_cases hbl : bitLen (n - 1).toNat = 0
        · rw [if_pos hbl] at hm
          exact absurd hm (by simp)
        · rw [if_neg hbl] at hm
          rcases hfind : randIntLoop n.toNat
              (if bitLen (n - 1).toNat % 8 = 0 then 8 else bitLen (n - 1).toNat % 8)
              draws with _ | c <;> rw [hfind] at hm <;> exact absurd hm (by simp)
      · intro h; exact absurd h h0
    · intro v hv
      simp only [bigIntn, if_neg h0] at hv
      by_cases hbl : bitLen (n - 1).toNat = 0
      · rw [if_pos hbl] at hv
        have hv0 : v = 0 := (GoResult.ok.inj hv).symm
        rw [hv0]
        omega
      · rw [if_neg hbl] at hv
        rcases hfind : randIntLoop n.toNat
            (if bitLen (n - 1).toNat % 8 = 0 then 8 else bitLen (n - 1).toNat % 8)
            draws with _ | c <;> rw [hfind] at hv
        · exact absurd hv (by simp)
        · have hc := randIntLoop_some _ _ draws c hfind
          have hvc : v = (c : Int) := (GoResult.ok.inj hv).symm
          rw [hvc]
          constructor
          · exact Int.ofNat_nonneg c
          · have h2 : (c : Int) < (n.toNat : Int) := by exact_mod_cast hc
            rwa [Int.toNat_of_nonneg (le_of_lt hpos)] at h2

/-- witness for C9: with bound 5 and a first drawn block `[3]`, the loop
accepts candidate 3, which lies in `[0, 5)`. -/
theorem bigIntn_panics_iff_and_in_range_witness :
    (0 : Int) ≤ 3 ∧ (3 : Int) < 5 :=
  (bigIntn_panics_iff_and_in_range 5 [[3]]).2 3 (by decide)

theorem fupd_double (f : Nat → Nat) (i v w : Nat) (x : Nat) :
    fupd (fupd f i w) i v x = fupd f i v x := by
  simp only [fupd]
  by_cases h : x = i <;> simp [h]

/-- mapping a pointwise-updated array function over `range m` is a `set` on
the mapped list. -/
theorem map_range_fupd (g : Nat → Nat) (m a v : Nat) (ha : a < m) :
    (List.range m).map (fupd g a v) = ((List.range m).map g).set a v := by
  induction m with
  | zero => exact absurd ha (by omega)
  | succ m ih =>
    rw [List.range_succ, List.map_append, List.map_append]
    by_cases hm : a < m
    · rw [ih hm, List.set_append_left _ _ (by simpa using hm)]
      have hne : (fupd g a v) m = g m := by
        simp only [fupd, if_neg (by omega : ¬ m = a)]
      simp [hne]
    · have ham : a = m := by omega
      subst ham
      have hleft : (List.range a).map (fupd g a v) = (List.range a).map g := by
        apply List.map_eq_map_iff.mpr
        intro x hx
        have hxa : x < a := List.mem_range.mp hx
        simp only [fupd, if_neg (by omega : ¬ x = a)]
      rw [hleft, List.set_append_right _ _ (by simp)]
      simp [fupd]

/-- replacing `l[j]` by `v` and appending the old `l[j]` is a permutation of
appending `v`. -/
theorem set_append_old_perm (l : List Nat) (j v : Nat) (h : j < l.length) :
    (l.set j v ++ [l.getD j 0]).Perm (l ++ [v]) := by
  induction l generalizing j with
  | nil => exact absurd h (by simp)
  | cons x t ih =>
    cases j with
    | zero =>
      simp only [List.set, List.getD, List.cons_append]
      exact ((List.Perm.cons v (List.perm_append_singleton x t)).trans
        (List.Perm.swap x v t)).trans
        (List.Perm.cons x (List.perm_append_singleton v t).symm)
    | succ j =>
      simp only [List.set, List.getD, List.cons_append]
      exact List.Perm.cons x (ih j (by simpa using h))

/-- loop invariant of `Perm`: after iterations `1 .. k` the first `k + 1`
array cells hold a permutation of `[0, k]`, every cell past `k` still holds
zero, and `k` bounded-integer draws have been consumed. -/
theorem permState_invariant (js : Nat → Nat) (hj : ∀ i, js i ≤ i) :
    ∀ k, ((List.range (k + 1)).map (permState js k).1).Perm (List.range (k + 1)) ∧
      (∀ x, k < x → (permState js k).1 x = 0) ∧
      (permState js k).2 = k := by
  intro k
  induction k with
  | zero => exact ⟨List.Perm.refl _, fun x hx => rfl, rfl⟩
  | succ k ih =>
    obtain ⟨hperm, hzero, hcount⟩ := ih
    have hj1 : js (k + 1) ≤ k + 1 := hj (k + 1)
    have hstep : (permState js (k + 1)).1 =
        fupd (fupd (permState js k).1 (k + 1) ((permState js k).1 (js (k + 1))))
          (js (k + 1)) (k + 1) := rfl
    have hlenmap : ((List.range (k + 1)).map (permState js k).1).length = k + 1 := by
      simp
    have h3 : (List.range (k + 2)).map (permState js k).1 =
        (List.range (k + 1)).map (permState js k).1 ++ [0] := by
      rw [show k + 2 = (k + 1) + 1 from rfl, List.range_succ, List.map_append]
      simp only [List.map_cons, List.map_nil]
      rw [hzero (k + 1) (by omega)]
    have h4 : ((List.range (k + 2)).map (permState js k).1).set (k + 1)
          ((permState js k).1 (js (k + 1))) =
        (List.range (k + 1)).map (permState js k).1 ++
          [(permState js k).1 (js (k + 1))] := by
      rw [h3, List.set_append_right _ _ (by rw [hlenmap])]
      rw [hlenmap]
      simp
    have hchain : (List.range (k + 2)).map (permState js (k + 1)).1 =
        ((List.range (k + 1)).map (permState js k).1 ++
          [(permState js k).1 (js (k + 1))]).set (js (k + 1)) (k + 1) := by
      rw [hstep, map_range_fupd _ _ _ _ (by omega), map_range_fupd _ _ _ _ (by omega),
        h4]
    have hr2 : List.range (k + 2) = List.range (k + 1) ++ [k + 1] :=
      List.range_succ (k + 1)
    refine ⟨?_, ?_, ?_⟩
    · rw [hchain, hr2]
      by_cases hcase : js (k + 1) = k + 1
      · rw [hcase, List.set_append_right _ _ (by rw [hlenmap]), hlenmap]
        simp only [Nat.sub_self, List.set]
        exact hperm.append (List.Perm.refl [k + 1])
      · have hjlt : js (k + 1) < k + 1 := by omega
        rw [List.set_append_left _ _ (by rw [hlenmap]; omega)]
        have hgetD : (permState js k).1 (js (k + 1)) =
            ((List.range (k + 1)).map (permState js k).1).getD (js (k + 1)) 0 := by
          rw [List.getD_eq_getElem _ _ (by rw [hlenmap]; omega),
            List.getElem_map, List.getElem_range]
        rw [hgetD]
        have hpull := set_append_old_perm ((List.range (k + 1)).map (permState js k).1)
          (js (k + 1)) (k + 1) (by rw [hlenmap]; omega)
        exact hpull.trans (hperm.append (List.Perm.refl [k + 1]))
    · intro x hx
      rw [hstep]
      simp only [fupd, if_neg (by omega : ¬ x = js (k + 1)),
        if_neg (by omega : ¬ x = k + 1)]
      exact hzero x (by omega)
    · have : (permState js (k + 1)).2 = (permState js k).2 + 1 := rfl
      rw [this, hcount]

/-- C7: for every `n ≥ 0` and in-range draw results (each `Intn(i+1)` call
returns a value `≤ i`), `Perm(n)` returns a slice of length `n` that is a
permutation of the integers `[0, n)` (each exactly once); `Perm(0)` returns
the empty slice and `Perm(1)` returns `[0]`, both consuming no draws. -/
theorem perm_is_permutation (js : Nat → Nat) (hj : ∀ i, js i ≤ i) (n : Nat) :
    (perm n js).1.length = n ∧
    (perm n js).1.Perm (List.range n) ∧
    perm 0 js = ([], 0) ∧
    perm 1 js = ([0], 0) := by
  refine ⟨by simp [perm], ?_, rfl, rfl⟩
  cases n with
  | zero => exact List.Perm.refl _
  | succ k =>
    have h := (permState_invariant js hj k).1
    simpa [perm] using h

/-- witness for C7: with every draw equal to 0, `Perm(3)` produces a
permutation of `[0, 3)` of length 3 (concretely `[2, 0, 1]`). -/
theorem perm_is_permutation_witness :
    (perm 3 (fun _ => 0)).1.Perm (List.range 3) ∧
    (perm 3 (fun _ => 0)).1.length = 3 :=
  ⟨(perm_is_permutation (fun _ => 0) (fun i => Nat.zero_le i) 3).2.1,
   (perm_is_permutation (fun _ => 0) (fun i => Nat.zero_le i) 3).1⟩

end Fastrand
